import Mathlib

/-!
Verification of the webloc filename processing pipeline.

Strings are modelled as `List Char`; Python string primitives
(`str.split`, `str.replace`, slicing, `os.path` helpers) are embedded as
executable functions on `List Char`, and the two scripts' algorithms
(`change_webloc_names.py`, `slim_webloc_names.py`) are embedded on top of
them.  Filesystem and network effects are modelled by explicit oracles
(success/failure outcomes) and event traces.
-/

/-- Python `sep in s` for nonempty `sep`: does `sep` occur as a contiguous
substring of `s`? -/
def hasSub (sep : List Char) : List Char → Bool
  | [] => sep.isPrefixOf []
  | c :: t => sep.isPrefixOf (c :: t) || hasSub sep t

/-- Python `s.split(sep)[0]`: the part of `s` before the first occurrence of
`sep` (all of `s` when `sep` does not occur). -/
def cutAt (sep : List Char) : List Char → List Char
  | [] => []
  | c :: t => if sep.isPrefixOf (c :: t) then [] else c :: cutAt sep t

/-- Worker for Python `s.split(sep)`: scans left to right, cutting at each
non-overlapping occurrence of `sep`; `acc` holds the current segment reversed.
The fuel argument (instantiated with the length of the string) makes the
recursion structural; every occurrence consumes at least one character, so
the fuel never runs out. -/
def splitFuel (sep : List Char) : Nat → List Char → List Char → List (List Char)
  | _, acc, [] => [acc.reverse]
  | 0, acc, c :: t => [acc.reverse ++ c :: t]
  | n + 1, acc, c :: t =>
    if sep.isPrefixOf (c :: t) then
      acc.reverse :: splitFuel sep n [] (t.drop (sep.length - 1))
    else
      splitFuel sep n (c :: acc) t

/-- Python `s.split(sep)` for nonempty `sep`. -/
def pySplit (sep s : List Char) : List (List Char) :=
  splitFuel sep s.length [] s

/-- Python `s.split(sep)[-1]`: the segment after the last occurrence of `sep`. -/
def lastSeg (sep s : List Char) : List Char :=
  (pySplit sep s).getLastD []

/-- Fuel-driven worker for Python `s.replace(pat, rep)`; the fuel is
instantiated with the length of the string, which always suffices. -/
def replaceFuel (pat rep : List Char) : Nat → List Char → List Char
  | _, [] => []
  | 0, s => s
  | n + 1, c :: t =>
    if pat.isPrefixOf (c :: t) then
      rep ++ replaceFuel pat rep n (t.drop (pat.length - 1))
    else
      c :: replaceFuel pat rep n t

/-- Python `s.replace(pat, rep)` for nonempty `pat`: replace every
non-overlapping occurrence, scanning left to right. -/
def replaceAll (pat rep s : List Char) : List Char :=
  replaceFuel pat rep s.length s

/-- Python slice `s[:n]` for an `int` bound `n`: nonnegative bounds keep the
first `n` characters, negative bounds drop the last `-n` (clamped at zero). -/
def pySliceTo (n : Int) (s : List Char) : List Char :=
  if 0 ≤ n then s.take n.toNat else s.take ((s.length : Int) + n).toNat

/-- `os.path.basename` for POSIX paths: the part after the last slash. -/
def baseName (s : List Char) : List Char :=
  lastSeg ['/'] s

/-- `os.path.dirname` for POSIX paths: the part before the last slash, with
trailing slashes stripped unless the head is all slashes. -/
def dirName (s : List Char) : List Char :=
  let head := s.take (s.length - (baseName s).length)
  if head ≠ [] ∧ ¬ (head.all (fun c => c == '/')) then
    (head.reverse.dropWhile (fun c => c == '/')).reverse
  else head

/-- `os.path.join(a, b)` for POSIX paths (two arguments). -/
def pathJoin (a b : List Char) : List Char :=
  if b.head? = some '/' then b
  else if a = [] ∨ a.getLast? = some '/' then a ++ b
  else a ++ '/' :: b

/-- `os.path.splitext` applied to a basename: splits off the extension at the
last dot, except when all characters before that dot are dots. -/
def splitExtBase (p : List Char) : List Char × List Char :=
  let i := p.length - (lastSeg ['.'] p).length - 1
  if p.contains '.' && decide (0 < i) && !((p.take i).all (fun c => c == '.')) then
    (p.take i, p.drop i)
  else (p, [])

/-- URL shape marker from `change_webloc_names.py` line 170. -/
def ytPre : List Char := "https://www.youtube.com/watch?".toList

/-- URL shape marker from `change_webloc_names.py` line 172. -/
def biliPre : List Char := "https://www.bilibili.com/video/".toList

/-- Cut marker `&pp` from `change_webloc_names.py` line 171. -/
def ppMark : List Char := '&' :: "pp".toList

/-- Cut marker `&vd_source=` from `change_webloc_names.py` line 173. -/
def avdMark : List Char := '&' :: "vd_source=".toList

/-- Cut marker `?vd_source=` from `change_webloc_names.py` line 173. -/
def qvdMark : List Char := '?' :: "vd_source=".toList

/-- Cut marker `?spm_id_from=` from `change_webloc_names.py` line 173. -/
def spmMark : List Char := '?' :: "spm_id_from=".toList

/-- URL canonicalization, `change_webloc_names.py` lines 170-173: strip the
known tracking/session query parameters from matched YouTube/Bilibili URL
shapes and pass every unmatched URL through unchanged. -/
def canonicalize (u : List Char) : List Char :=
  let u1 := if ytPre.isPrefixOf u then cutAt ppMark u else u
  if biliPre.isPrefixOf u1 then cutAt spmMark (cutAt qvdMark (cutAt avdMark u1)) else u1

example : canonicalize "https://www.youtube.com/watch?v=abc&pp=xyz".toList
    = "https://www.youtube.com/watch?v=abc".toList := by decide

example : canonicalize "https://www.bilibili.com/video/BV1?spm_id_from=333".toList
    = "https://www.bilibili.com/video/BV1".toList := by decide

example : canonicalize "https://example.com/a?x=1".toList
    = "https://example.com/a?x=1".toList := by decide

example : baseName "d/x.webloc".toList = "x.webloc".toList := by decide
example : dirName "d/x.webloc".toList = "d".toList := by decide
example : dirName "/x".toList = "/".toList := by decide
example : dirName "a//b".toList = "a".toList := by decide
example : splitExtBase "a.b.webloc".toList = ("a.b".toList, ".webloc".toList) := by decide
example : splitExtBase ".hidden".toList = (".hidden".toList, []) := by decide
example : lastSeg " - ".toList "A - B - C".toList = "C".toList := by decide
example : replaceAll " - YouTube".toList [] "x - YouTube y - YouTube".toList = "x y".toList := by decide

/-- Is `n` within the closed range `[lo, hi]`? -/
def inR (lo hi n : Nat) : Bool :=
  decide (lo ≤ n ∧ n ≤ hi)

/-- The character class of `EMOJI_PATTERN` (`change_webloc_names.py`
lines 78-97): the fixed exclusion ranges of symbolic/pictographic glyphs. -/
def isEmoji (c : Char) : Bool :=
  let n := c.toNat
  inR 0x1F600 0x1F64F n || inR 0x1F300 0x1F5FF n || inR 0x1F680 0x1F6FF n ||
  inR 0x1F700 0x1F77F n || inR 0x1F780 0x1F7FF n || inR 0x1F800 0x1F8FF n ||
  inR 0x1F900 0x1F9FF n || inR 0x1FA00 0x1FA6F n || inR 0x1FA70 0x1FAFF n ||
  inR 0x2702 0x27B0 n || inR 0x24C2 0x257F n || inR 0x2600 0x26FF n ||
  inR 0x2700 0x27BF n || inR 0xFE00 0xFE0F n || inR 0x1F1E6 0x1F1FF n

/-- `change_webloc_names.py` line 204, first three replaces: drop `?`, `!`
and `/`. -/
def stripQBS (s : List Char) : List Char :=
  s.filter (fun c => !(c == '?') && !(c == '!') && !(c == '/'))

/-- `change_webloc_names.py` line 204, last replace: collapse the full-width
space to an ordinary space. -/
def fwSpace (c : Char) : Char :=
  if c = '　' then ' ' else c

/-- The character-level cleaning of step 3 (`change_webloc_names.py`
lines 204-205): strip `?`, `!`, `/`, collapse full-width spaces, then remove
emoji via `EMOJI_PATTERN.sub`. -/
def clean (s : List Char) : List Char :=
  ((stripQBS s).map fwSpace).filter (fun c => !isEmoji c)

/-- The sanitizer of the spec, assembled exactly from the source: the step-3
character cleaning (`change_webloc_names.py` lines 204-205) followed by the
length-budget truncation (`change_webloc_names.py` lines 219-222) with
`maxLength = 255 - reservedSuffixLength - directoryPathLength`, using Python
slice semantics for the truncation. -/
def sanitize (x : List Char) (r d : Nat) : List Char :=
  let c := clean x
  let maxL : Int := 255 - (r : Int) - (d : Int)
  if (c.length : Int) > maxL then pySliceTo maxL c else c

example : clean "a?b!c/d　e".toList = "abcd e".toList := by decide
example : sanitize "a?b!c/d　e".toList 7 0 = "abcd e".toList := by decide
example : sanitize (List.replicate 20 'a') 7 253 = List.replicate 15 'a' := by decide

/-- Map a string to lowercase characterwise (ASCII case folding, which covers
every pattern used by the rule detectors). -/
def toLowerL (s : List Char) : List Char :=
  s.map Char.toLower

/-- `re.search(pat, s, re.I)` for a literal lowercase pattern `pat`:
case-insensitive substring test. -/
def ciHas (pat s : List Char) : Bool :=
  hasSub pat (toLowerL s)

/-- One entry of `PLATFORM_RULES` (`change_webloc_names.py` lines 9-76):
display prefix, URL detector, and suffix-cleaning transform. -/
structure PRule where
  pre : List Char
  det : List Char → Bool
  clnr : List Char → List Char

/-- `PLATFORM_RULES` from `change_webloc_names.py` lines 9-76, in declaration
order (Python dict iteration order is insertion order). -/
def PLATFORM_RULES : List PRule := [
  ⟨"       Bilibili - ".toList,
   fun u => ciHas "b23.tv".toList u || ciHas "bilibili.com".toList u,
   fun n => cutAt "_哔哩哔哩_bilibili".toList (cutAt "_哔哩哔哩bilibili".toList n)⟩,
  ⟨"       YouTube - ".toList,
   fun u => ciHas "youtu.be".toList u || ciHas "youtube.com".toList u,
   fun n => replaceAll " - YouTube".toList [] (cutAt "• • 收看次數".toList (pySliceTo (-8) n))⟩,
  ⟨"       百度百科 - ".toList,
   fun u => ciHas "baike.baidu.com".toList u,
   fun n => replaceAll "_百度百科".toList [] n⟩,
  ⟨"       Wikipedia - ".toList,
   fun u => ciHas "wikipedia.org".toList u,
   fun n => replaceAll " 維基百科，自由的百科全書".toList []
     (replaceAll " - 維基百科, 自由的百科全書".toList [] n)⟩,
  ⟨"       GeeksforGeeks - ".toList,
   fun u => ciHas "geeksforgeeks.org".toList u,
   fun n => replaceAll " | GeeksforGeeks".toList [] n⟩,
  ⟨"       StackOverflow - ".toList,
   fun u => ciHas "stackoverflow.com".toList u,
   fun n => replaceAll " - Stack Overflow".toList [] n⟩,
  ⟨"       Latex StackExchange - ".toList,
   fun u => ciHas "tex.stackexchange.com".toList u,
   fun n => replaceAll " - TeX - LaTeX Stack Exchange".toList [] n⟩,
  ⟨"       Zhihu - ".toList,
   fun u => ciHas "zhihu.com".toList u,
   fun n => replaceAll " - 知乎".toList [] n⟩,
  ⟨"       CSDN - ".toList,
   fun u => ciHas "blog.csdn.net".toList u,
   fun n => replaceAll "-CSDN博客".toList [] n⟩,
  ⟨"       HuggingFace - ".toList,
   fun u => ciHas "huggingface.co".toList u,
   fun n => n⟩,
  ⟨"       BBC - ".toList,
   fun u => ciHas "bbc.com".toList u,
   fun n => replaceAll " - BBC News".toList [] (replaceAll " - BBC News 中文".toList [] n)⟩,
  ⟨"       Python - ".toList,
   fun u => ciHas "python.org".toList u,
   fun n => n⟩,
  ⟨"       Github - ".toList,
   fun u => ciHas "github.com".toList u,
   fun n => cutAt " · ".toList n⟩]

/-- The first platform rule whose detector matches the URL (the `for`/`break`
loop head of `change_webloc_names.py` lines 207-215). -/
def findRule (url : List Char) : Option PRule :=
  PLATFORM_RULES.find? (fun r => r.det url)

/-- The separator `" - "` used for last-segment extraction. -/
def dashSep : List Char := " - ".toList

/-- The generic fallback display marker of `change_webloc_names.py` line 217. -/
def linkPre : List Char := "       Link - ".toList

/-- The literal `".webloc"`. -/
def weblocL : List Char := ".webloc".toList

/-- The title normalization of step 2 (`change_webloc_names.py` line 188):
nine sequential `str.replace` calls, in source order. -/
def titleClean (t : List Char) : List Char :=
  replaceAll " -".toList " ".toList (
  replaceAll "- ".toList " ".toList (
  replaceAll "!".toList [] (
  replaceAll "?".toList [] (
  replaceAll "｜".toList " ".toList (
  replaceAll " | ".toList " ".toList (
  replaceAll " - ".toList " ".toList (
  replaceAll ":".toList "：".toList (
  replaceAll "/".toList "_".toList t))))))))

/-- Step-3 display-name computation (`change_webloc_names.py` lines 203-218):
character cleaning, then the first matching platform rule (prefix plus
last-`" - "`-segment extraction unless the step-2 name already starts with the
rule's prefix, then the rule's suffix cleaner), with the generic `Link`
fallback built from the uncleaned step-2 name when no rule matches. -/
def step3compute (url s2name : List Char) : List Char :=
  let b := clean s2name
  match findRule url with
  | some r =>
    let n1 := if r.pre.isPrefixOf s2name then b else r.pre ++ lastSeg dashSep b
    r.clnr n1
  | none => linkPre ++ lastSeg dashSep s2name

example : step3compute "https://www.youtube.com/watch?v=a".toList
    (titleClean "Some Video • • 收看次數 123 - YouTube".toList)
    = "       YouTube - Some Video ".toList := by decide

example : step3compute "https://example.com/x".toList "My Title".toList
    = "       Link - My Title".toList := by decide

/-- Worker for the dedup loop of `change_webloc_names.py` lines 169-179:
`seen` is the set of canonical URLs recorded in `url_map`; a record whose
canonical URL was already seen is removed (`os.remove` and `continue`) and
never proceeds to the naming/renaming steps. -/
def dedupGo (seen : List (List Char)) : List (List Char) → List Bool
  | [] => []
  | u :: rest =>
    if canonicalize u ∈ seen then false :: dedupGo seen rest
    else true :: dedupGo (canonicalize u :: seen) rest

/-- For each record URL, in input order: does the record proceed to the
naming/renaming steps (`true`) or is it removed as a duplicate (`false`)? -/
def dedupProceeds (urls : List (List Char)) : List Bool :=
  dedupGo [] urls

example : dedupProceeds
    ["https://www.youtube.com/watch?v=abc&pp=xyz".toList,
     "https://www.youtube.com/watch?v=abc&pp=qrs".toList]
    = [true, false] := by decide

/-- One record of the `change_webloc_names.py` pipeline after dedup, together
with the environment's behaviour on it: the (already canonicalized) URL, the
title fetched for it (`none` models fetch failure or empty title), and the
OS outcomes of the step-2 and step-3 renames when they are attempted on an
existing source. -/
structure C3In where
  filepath : List Char
  url : List Char
  titleQ : Option (List Char)
  ok2 : Bool
  ok3 : Bool

/-- Step 2 of `change_webloc_names.py` (lines 181-200): title-based rename.
Returns `(step_2_filename, step_2_filepath, location)` where `location` is
where the file actually is afterwards: with a title, the code computes the
truncated cleaned title name and attempts `os.rename`; on failure the
exception is caught locally and the file stays put, but the computed
`step_2_filename`/`step_2_filepath` are still used downstream. -/
def c3Step2 (r : C3In) : List Char × List Char × List Char :=
  match r.titleQ with
  | none => (baseName r.filepath, r.filepath, r.filepath)
  | some t =>
    let tc := titleClean t
    let maxL : Int := 255 - (weblocL.length : Int) - ((dirName r.filepath).length : Int)
    let nm := if (tc.length : Int) > maxL then pySliceTo maxL tc else tc
    let p2 := pathJoin (dirName r.filepath) nm
    (nm, p2, if r.ok2 then p2 else r.filepath)

/-- The destination of the final rename (`change_webloc_names.py`
lines 219-226): step-3 name, length-budget truncation, join with the
directory of `step_2_filepath`, and `.webloc` appended when the path does
not already end with it. -/
def c3Dest (r : C3In) : List Char :=
  let s2 := c3Step2 r
  let n3 := step3compute r.url s2.1
  let maxL : Int := 255 - (weblocL.length : Int) - ((dirName s2.2.1).length : Int)
  let n3t := if (n3.length : Int) > maxL then pySliceTo maxL n3 else n3
  let p3 := pathJoin (dirName s2.2.1) n3t
  if weblocL.isSuffixOf p3 then p3 else p3 ++ weblocL

/-- Where the record's file is when its processing finishes
(`change_webloc_names.py` lines 181-231): the final `os.rename` moves
`step_2_filepath` to the step-3 destination; it can only succeed when the
file actually is at `step_2_filepath`, and any exception is caught by the
outer handler, leaving the file where it was. -/
def c3FinalLoc (r : C3In) : List Char :=
  let s2 := c3Step2 r
  if r.ok3 && (s2.2.1 == s2.2.2) then c3Dest r else s2.2.2

/-- Service entry shapes for the batch simplification response
(`slim_webloc_names.py` lines 107-109): a JSON object carrying a
`simplified` field, or a bare string. -/
inductive SEntry
  | withField (s : List Char)
  | plain (s : List Char)
deriving DecidableEq

/-- The simplified value extracted from a response entry
(`slim_webloc_names.py` lines 108-109). -/
def entryVal : SEntry → List Char
  | SEntry.withField s => s
  | SEntry.plain s => s

/-- Outcome of one service call for a batch: a parsed entry list, or a
request-level error (network failure, HTTP error, JSON parse failure...). -/
inductive SvcResp
  | ok (entries : List SEntry)
  | err
deriving Inhabited

/-- One work-queue element of `simplify_filenames`
(`slim_webloc_names.py` line 41): `{'id': i, 'filenames': ..., 'attempts': 0}`. -/
structure SBatch where
  id : Nat
  filenames : List (List Char)
  attempts : Nat

/-- The batch partition of `slim_webloc_names.py` lines 39-41: chunks of
`batch_size` in input order, each with an attempt counter starting at 0. -/
def mkBatches (fps : List (List Char)) (bs : Nat) : List SBatch :=
  (List.range ((fps.length + bs - 1) / bs)).map
    (fun i => ⟨i, (fps.drop (i * bs)).take bs, 0⟩)

/-- The name stored for one record on a successful entry match
(`slim_webloc_names.py` lines 71-76 and 107-113): the `" - "`-prefix of the
original basename (first split segment, when there are at least two) is
reattached in front of the entry's simplified value. -/
def assignName (fp : List Char) (e : SEntry) : List Char :=
  let base := (splitExtBase (baseName fp)).1
  let segs := pySplit dashSep base
  let pre := if segs.length > 1 then segs.headD [] else []
  if pre ≠ [] then pre ++ dashSep ++ entryVal e else entryVal e

/-- Python dict assignment `d[k] = v` on an association list: updates the
value in place when the key exists, otherwise appends. -/
def assocUpsert (l : List (List Char × List Char)) (k v : List Char) :
    List (List Char × List Char) :=
  match l with
  | [] => [(k, v)]
  | (k', v') :: t => if k' = k then (k', v) :: t else (k', v') :: assocUpsert t k v

/-- The response-matching loop of `slim_webloc_names.py` lines 107-113:
entry `i` is assigned to batch record `i`; records beyond the entry list get
nothing, and entries beyond the record list raise `IndexError` after all
records have been assigned. -/
def assignBatch (fns : List (List Char)) (entries : List SEntry)
    (names : List (List Char × List Char)) : List (List Char × List Char) :=
  (fns.zip entries).foldl (fun a p => assocUpsert a p.1 (assignName p.1 p.2)) names

/-- The retry/quarantine work loop of `simplify_filenames`
(`slim_webloc_names.py` lines 45-128).  One iteration pops the front batch
and consults the next service outcome.  On success with at most as many
entries as records, the batch completes; with more entries than records the
update loop raises `IndexError` after assigning every record, which lands in
the exception handler.  The handler increments `attempts` and requeues the
batch at the back only when `attempts < 1`, otherwise it extends the failure
list with the whole batch.  Returns the name map, the failure list, and the
number of loop iterations executed.  The leading fuel argument only makes the
recursion structural; it is instantiated with strictly more fuel than the
loop can consume (the requeue guard `attempts + 1 < 1` is unsatisfiable, so
the queue shrinks on every iteration, as proved below). -/
def simplifyGo : Nat → List SBatch → List SvcResp → List (List Char × List Char) →
    List (List Char) → Nat →
    List (List Char × List Char) × List (List Char) × Nat
  | _, [], _, names, failed, n => (names, failed, n)
  | 0, _ :: _, _, names, failed, n => (names, failed, n)
  | fuel + 1, b :: rest, oracle, names, failed, n =>
    match oracle.headD SvcResp.err with
    | SvcResp.ok entries =>
      let names' := assignBatch b.filenames entries names
      if entries.length ≤ b.filenames.length then
        simplifyGo fuel rest oracle.tail names' failed (n + 1)
      else
        if b.attempts + 1 < 1 then
          simplifyGo fuel (rest ++ [⟨b.id, b.filenames, b.attempts + 1⟩]) oracle.tail
            names' failed (n + 1)
        else
          simplifyGo fuel rest oracle.tail names' (failed ++ b.filenames) (n + 1)
    | SvcResp.err =>
      if b.attempts + 1 < 1 then
        simplifyGo fuel (rest ++ [⟨b.id, b.filenames, b.attempts + 1⟩]) oracle.tail
          names failed (n + 1)
      else
        simplifyGo fuel rest oracle.tail names (failed ++ b.filenames) (n + 1)

/-- `simplify_filenames` (`slim_webloc_names.py` lines 26-130) as a function
of the input file list, the batch size, and the sequence of service-call
outcomes: returns `(simplified_names, failed_instances)` plus the iteration
count of the work loop. -/
def simplify_filenames (fps : List (List Char)) (bs : Nat) (oracle : List SvcResp) :
    List (List Char × List Char) × List (List Char) × Nat :=
  simplifyGo ((mkBatches fps bs).length * 2) (mkBatches fps bs) oracle [] [] 0

/-- New-basename computation of `rename_webloc_files`
(`slim_webloc_names.py` lines 139-152): simplified name plus original
extension; when the result exceeds 255 characters, the last-resort hard
truncation cuts it to its first 250 characters and reattaches the extension. -/
def slimNewName (simplified ext : List Char) : List Char :=
  let newName := simplified ++ ext
  if newName.length > 255 then newName.take 250 ++ ext else newName

/-- Destination path of `rename_webloc_files` for one record
(`slim_webloc_names.py` lines 139-151). -/
def slimNewPath (orig simplified : List Char) : List Char :=
  pathJoin (dirName orig) (slimNewName simplified (splitExtBase (baseName orig)).2)

/-- Filesystem mutation events of the slim script: an `os.rename` call that
succeeded, and a file creation via `open(..., 'w')`. -/
inductive FsEv
  | ren (src dst : List Char)
  | fileWrite (name : List Char)
deriving DecidableEq

/-- `rename_webloc_files` (`slim_webloc_names.py` lines 132-162) over the
`simplified_names` items: empty names are skipped; in dry-run mode each item
only reports the intended rename (no event); otherwise `os.rename` is
attempted, with `rOk` giving the OS outcome per original path, and a failing
record is appended to the local failure list without stopping the loop.
Returns the emitted events and the failure list. -/
def rename_webloc_files (items : List (List Char × List Char)) (dry : Bool)
    (rOk : List Char → Bool) : List FsEv × List (List Char) :=
  match items with
  | [] => ([], [])
  | (orig, simplified) :: rest =>
    if simplified = [] then rename_webloc_files rest dry rOk
    else if dry then rename_webloc_files rest dry rOk
    else
      let r := rename_webloc_files rest dry rOk
      if rOk orig then (FsEv.ren orig (slimNewPath orig simplified) :: r.1, r.2)
      else (r.1, orig :: r.2)

/-- The literal `"failed.py"`. -/
def failedPy : List Char := "failed.py".toList

/-- The filesystem mutations performed by `main` of `slim_webloc_names.py`
(lines 164-244) after file discovery: early return when no files or no
simplified names; the confirmation gate (skipped in dry-run mode); the
rename pass; and, whenever any failed instances exist, the creation of the
remediation script `failed.py` via `open('failed.py', 'w')` — note that this
write is not guarded by the dry-run flag. -/
def slimMainEvents (files : List (List Char)) (bs : Nat) (oracle : List SvcResp)
    (dry : Bool) (rOk : List Char → Bool) (confirm : Bool) : List FsEv :=
  if files.isEmpty then []
  else
    let res := simplify_filenames files bs oracle
    if res.1.isEmpty then []
    else if !dry && !confirm then []
    else
      let rr := rename_webloc_files res.1 dry rOk
      let failedAll := res.2.1 ++ rr.2
      rr.1 ++ (if failedAll.isEmpty then [] else [FsEv.fileWrite failedPy])

example : simplify_filenames ["d/a.webloc".toList, "d/b.webloc".toList] 5
    [SvcResp.err, SvcResp.err]
    = ([], ["d/a.webloc".toList, "d/b.webloc".toList], 1) := by decide

example : simplify_filenames ["d/a.webloc".toList, "d/b.webloc".toList] 5
    [SvcResp.ok [SEntry.plain "X".toList]]
    = ([("d/a.webloc".toList, "X".toList)], [], 1) := by decide

example : slimMainEvents ["d/a.webloc".toList, "d/b.webloc".toList] 1
    [SvcResp.ok [SEntry.plain "X".toList], SvcResp.err] true (fun _ => true) true
    = [FsEv.fileWrite failedPy] := by decide

lemma listPreIff {l₁ l₂ : List Char} : l₁.isPrefixOf l₂ = true ↔ l₁ <+: l₂ := by
  exact List.isPrefixOf_iff_prefix

lemma listNilPre {l : List Char} : [] <+: l := by
  exact List.nil_prefix

lemma cutAt_pre (sep : List Char) : ∀ s, cutAt sep s <+: s := by
  intro s
  induction s with
  | nil => simp [cutAt]
  | cons c t ih =>
    simp only [cutAt]
    split
    · exact listNilPre
    · exact List.cons_prefix_cons.mpr ⟨rfl, ih⟩

lemma hasSub_of_pre (sep : List Char) : ∀ t s, t <+: s → hasSub sep t = true →
    hasSub sep s = true := by
  intro t
  induction t with
  | nil =>
    intro s _ h
    simp only [hasSub] at h
    have hsep : sep = [] := List.prefix_nil.mp (listPreIff.mp h)
    subst hsep
    cases s <;> simp [hasSub, List.isPrefixOf]
  | cons a t' ih =>
    intro s hpre h
    obtain ⟨k, rfl⟩ := hpre
    simp only [hasSub, Bool.or_eq_true] at h
    simp only [List.cons_append, hasSub, Bool.or_eq_true]
    rcases h with h | h
    · exact Or.inl (listPreIff.mpr
        ((listPreIff.mp h).trans (List.prefix_append _ _)))
    · exact Or.inr (ih (t' ++ k) (List.prefix_append _ _) h)

lemma hasSub_cutAt (sep : List Char) (hne : sep ≠ []) : ∀ s,
    hasSub sep (cutAt sep s) = false := by
  intro s
  induction s with
  | nil =>
    cases sep with
    | nil => exact absurd rfl hne
    | cons c0 sep' => simp [cutAt, hasSub, List.isPrefixOf]
  | cons c t ih =>
    cases h : sep.isPrefixOf (c :: t) with
    | true =>
      cases sep with
      | nil => exact absurd rfl hne
      | cons c0 sep' =>
        simp only [cutAt, h, if_true]
        simp [hasSub, List.isPrefixOf]
    | false =>
      simp only [cutAt, h, Bool.false_eq_true, if_false]
      have h1 : sep.isPrefixOf (c :: cutAt sep t) = false := by
        cases hx : sep.isPrefixOf (c :: cutAt sep t) with
        | false => rfl
        | true =>
          have hp : sep <+: c :: t := (listPreIff.mp hx).trans
            (List.cons_prefix_cons.mpr ⟨rfl, cutAt_pre sep t⟩)
          rw [listPreIff.mpr hp] at h
          exact absurd h (by simp)
      simp only [hasSub, h1, ih, Bool.or_self]

lemma cutAt_of_not_sub (sep : List Char) : ∀ s, hasSub sep s = false →
    cutAt sep s = s := by
  intro s
  induction s with
  | nil => intro _; simp [cutAt]
  | cons c t ih =>
    intro h
    simp only [hasSub, Bool.or_eq_false_iff] at h
    simp only [cutAt, h.1, Bool.false_eq_true, if_false]
    rw [ih h.2]

lemma pre_cutAt (c0 : Char) (sep' : List Char) : ∀ p s, p <+: s → c0 ∉ p →
    p <+: cutAt (c0 :: sep') s := by
  intro p
  induction p with
  | nil => intro s _ _; exact listNilPre
  | cons a p' ih =>
    intro s hp hmem
    cases s with
    | nil =>
      rw [List.prefix_nil] at hp
      exact absurd hp (by simp)
    | cons b s' =>
      rw [List.cons_prefix_cons] at hp
      obtain ⟨hab, hp'⟩ := hp
      subst hab
      have hc0 : c0 ≠ a := fun hc => hmem (hc ▸ List.mem_cons_self a p')
      have hbeq : (c0 == a) = false := beq_eq_false_iff_ne.mpr hc0
      have hnp : (c0 :: sep').isPrefixOf (a :: s') = false := by
        simp [List.isPrefixOf, hbeq]
      simp only [cutAt, hnp, Bool.false_eq_true, if_false]
      exact List.cons_prefix_cons.mpr
        ⟨rfl, ih s' hp' (fun hc => hmem (List.mem_cons_of_mem a hc))⟩

lemma not_both_yt_bili (l : List Char) (h1 : ytPre.isPrefixOf l = true)
    (h2 : biliPre.isPrefixOf l = true) : False := by
  have p1 := listPreIff.mp h1
  have p2 := listPreIff.mp h2
  have hle : ytPre.length ≤ biliPre.length := by decide
  have hpp := List.prefix_of_prefix_length_le p1 p2 hle
  exact absurd (listPreIff.mpr hpp) (by decide)

lemma canon_yt (u : List Char) (h : ytPre.isPrefixOf u = true) :
    canonicalize u = cutAt ppMark u := by
  have hyt2 : ytPre <+: cutAt ppMark u :=
    pre_cutAt '&' "pp".toList ytPre u (listPreIff.mp h) (by decide)
  have hbf : biliPre.isPrefixOf (cutAt ppMark u) = false := by
    cases hb : biliPre.isPrefixOf (cutAt ppMark u) with
    | false => rfl
    | true => exact (not_both_yt_bili _ (listPreIff.mpr hyt2) hb).elim
  unfold canonicalize
  simp [h, hbf]

lemma canon_bili (u : List Char) (h1 : ytPre.isPrefixOf u = false)
    (h2 : biliPre.isPrefixOf u = true) :
    canonicalize u = cutAt spmMark (cutAt qvdMark (cutAt avdMark u)) := by
  unfold canonicalize
  simp [h1, h2]

lemma canon_other (u : List Char) (h1 : ytPre.isPrefixOf u = false)
    (h2 : biliPre.isPrefixOf u = false) : canonicalize u = u := by
  unfold canonicalize
  simp [h1, h2]

/-- C7: URL canonicalization is idempotent: for every URL string `u`,
`canonicalize (canonicalize u) = canonicalize u`, where `canonicalize` strips
the known tracking/session parameters from matched YouTube/Bilibili URL
shapes and passes every unmatched URL through unchanged. -/
theorem c7_canonicalize_idem (u : List Char) :
    canonicalize (canonicalize u) = canonicalize u := by
  cases hyt : ytPre.isPrefixOf u with
  | true =>
    rw [canon_yt u hyt]
    have hytv : ytPre.isPrefixOf (cutAt ppMark u) = true :=
      listPreIff.mpr
        (pre_cutAt '&' "pp".toList ytPre u (listPreIff.mp hyt) (by decide))
    rw [canon_yt _ hytv]
    exact cutAt_of_not_sub ppMark _ (hasSub_cutAt ppMark (by decide) u)
  | false =>
    cases hbl : biliPre.isPrefixOf u with
    | false => rw [canon_other u hyt hbl, canon_other u hyt hbl]
    | true =>
      rw [canon_bili u hyt hbl]
      have pv1 : cutAt spmMark (cutAt qvdMark (cutAt avdMark u)) <+: cutAt qvdMark (cutAt avdMark u) :=
        cutAt_pre spmMark _
      have pv2 : cutAt qvdMark (cutAt avdMark u) <+: cutAt avdMark u := cutAt_pre qvdMark _
      have pv3 : cutAt avdMark u <+: u := cutAt_pre avdMark u
      have hytv : ytPre.isPrefixOf (cutAt spmMark (cutAt qvdMark (cutAt avdMark u))) = false := by
        cases hx : ytPre.isPrefixOf (cutAt spmMark (cutAt qvdMark (cutAt avdMark u))) with
        | false => rfl
        | true =>
          have hp : ytPre <+: u :=
            (listPreIff.mp hx).trans (pv1.trans (pv2.trans pv3))
          rw [listPreIff.mpr hp] at hyt
          exact absurd hyt (by simp)
      have hb1 : biliPre <+: cutAt avdMark u :=
        pre_cutAt '&' "vd_source=".toList biliPre u
          (listPreIff.mp hbl) (by decide)
      have hb2 : biliPre <+: cutAt qvdMark (cutAt avdMark u) :=
        pre_cutAt '?' "vd_source=".toList biliPre _ hb1 (by decide)
      have hb3 : biliPre <+: cutAt spmMark (cutAt qvdMark (cutAt avdMark u)) :=
        pre_cutAt '?' "spm_id_from=".toList biliPre _ hb2 (by decide)
      rw [canon_bili _ hytv (listPreIff.mpr hb3)]
      have ha : hasSub avdMark (cutAt spmMark (cutAt qvdMark (cutAt avdMark u))) = false := by
        cases hx : hasSub avdMark (cutAt spmMark (cutAt qvdMark (cutAt avdMark u))) with
        | false => rfl
        | true =>
          have h1' := hasSub_of_pre avdMark _ _ (pv1.trans pv2) hx
          rw [hasSub_cutAt avdMark (by decide) u] at h1'
          exact absurd h1' (by simp)
      rw [cutAt_of_not_sub avdMark _ ha]
      have hq : hasSub qvdMark (cutAt spmMark (cutAt qvdMark (cutAt avdMark u))) = false := by
        cases hx : hasSub qvdMark (cutAt spmMark (cutAt qvdMark (cutAt avdMark u))) with
        | false => rfl
        | true =>
          have h1' := hasSub_of_pre qvdMark _ _ pv1 hx
          rw [hasSub_cutAt qvdMark (by decide) (cutAt avdMark u)] at h1'
          exact absurd h1' (by simp)
      rw [cutAt_of_not_sub qvdMark _ hq]
      exact cutAt_of_not_sub spmMark _
        (hasSub_cutAt spmMark (by decide) (cutAt qvdMark (cutAt avdMark u)))

/-- A character is fixed by the step-3 cleaning: not `?`, `!`, `/`, not the
full-width space, and not an emoji. -/
def okChar (c : Char) : Bool :=
  !(c == '?') && !(c == '!') && !(c == '/') && !(c == '　') && !isEmoji c

lemma mem_clean_ok (l : List Char) : ∀ c ∈ clean l, okChar c = true := by
  intro c hc
  simp only [clean, List.mem_filter, List.mem_map, stripQBS] at hc
  obtain ⟨⟨d, hd, hdc⟩, hem⟩ := hc
  simp only [List.mem_filter, Bool.and_eq_true] at hd
  by_cases hfw : d = '　'
  · subst hfw
    simp only [fwSpace, if_pos rfl] at hdc
    subst hdc
    decide
  · rw [fwSpace, if_neg hfw] at hdc
    subst hdc
    simp only [okChar, Bool.and_eq_true]
    refine ⟨⟨⟨⟨hd.2.1.1, hd.2.1.2⟩, hd.2.2⟩, ?_⟩, hem⟩
    simp [hfw]

lemma clean_cons_ok (c : Char) (t : List Char) (h : okChar c = true) :
    clean (c :: t) = c :: clean t := by
  simp only [okChar, Bool.and_eq_true] at h
  obtain ⟨⟨⟨⟨h1, h2⟩, h3⟩, h4⟩, h5⟩ := h
  have hfw : fwSpace c = c := by
    rw [fwSpace, if_neg]
    intro hc
    rw [hc] at h4
    simp at h4
  simp only [clean, stripQBS, List.filter_cons, h1, h2, h3, Bool.and_self, if_true,
    List.map_cons, hfw, h5]

lemma clean_of_ok : ∀ l : List Char, (∀ c ∈ l, okChar c = true) → clean l = l := by
  intro l
  induction l with
  | nil => intro _; rfl
  | cons c t ih =>
    intro h
    rw [clean_cons_ok c t (h c (List.mem_cons_self c t))]
    rw [ih (fun e he => h e (List.mem_cons_of_mem c he))]

/-- C8 counterexample: with a negative length budget (reserved suffix plus
directory path exceeding 255), Python slice semantics make each application
of the sanitizer drop five more characters, so sanitization is not idempotent
for every fixed pair of budget arguments. -/
theorem c8_sanitize_counterexample :
    sanitize (sanitize (List.replicate 20 'a') 7 253) 7 253
      ≠ sanitize (List.replicate 20 'a') 7 253 := by
  decide

/-- C8 (amended): filename sanitization is idempotent for a fixed length
budget whenever that budget is nonnegative, i.e. when
`reservedSuffixLength + directoryPathLength ≤ 255`: applying the character
stripping, emoji removal, full-width-space collapsing, and prefix-keep
truncation a second time changes nothing. -/
theorem c8_sanitize_idem (x : List Char) (r d : Nat) (h : r + d ≤ 255) :
    sanitize (sanitize x r d) r d = sanitize x r d := by
  have hm : (0 : Int) ≤ 255 - (r : Int) - (d : Int) := by omega
  have key : ∀ y : List Char, (∀ c ∈ y, okChar c = true) →
      ((y.length : Int) ≤ 255 - (r : Int) - (d : Int)) → sanitize y r d = y := by
    intro y hok hlen
    unfold sanitize
    rw [clean_of_ok y hok]
    rw [if_neg (by omega)]
  by_cases hbig : ((clean x).length : Int) > 255 - (r : Int) - (d : Int)
  · have hx : sanitize x r d = (clean x).take (255 - (r : Int) - (d : Int)).toNat := by
      unfold sanitize
      rw [if_pos hbig, pySliceTo, if_pos hm]
    rw [hx]
    refine key _ (fun c hc => mem_clean_ok x c (List.take_subset _ _ hc)) ?_
    have h1 : ((clean x).take (255 - (r : Int) - (d : Int)).toNat).length
        ≤ (255 - (r : Int) - (d : Int)).toNat := by
      rw [List.length_take]
      omega
    have h2 : (((255 - (r : Int) - (d : Int)).toNat : Int)) = 255 - (r : Int) - (d : Int) :=
      Int.toNat_of_nonneg hm
    omega
  · have hx : sanitize x r d = clean x := by
      unfold sanitize
      rw [if_neg hbig]
    rw [hx]
    exact key _ (mem_clean_ok x) (by omega)

/-- Witness for `c8_sanitize_idem` at a concrete input. -/
theorem c8_sanitize_idem_witness :
    7 + 0 ≤ 255 ∧ sanitize (sanitize "ab?c".toList 7 0) 7 0 = sanitize "ab?c".toList 7 0 :=
  ⟨by decide, c8_sanitize_idem "ab?c".toList 7 0 (by decide)⟩

lemma dedupGo_getD : ∀ (urls : List (List Char)) (seen : List (List Char)) (i : Nat),
    i < urls.length →
    (dedupGo seen urls).getD i false =
      if canonicalize (urls.getD i []) ∈ seen ++ (urls.take i).map canonicalize
      then false else true := by
  intro urls
  induction urls with
  | nil => intro seen i hi; exact absurd hi (by simp)
  | cons u rest ih =>
    intro seen i hi
    cases i with
    | zero =>
      simp only [dedupGo, List.getD_cons_zero, List.take_zero, List.map_nil, List.append_nil]
      split
      · simp_all
      · simp_all
    | succ i' =>
      have hi' : i' < rest.length := by simpa using hi
      simp only [List.getD_cons_succ, List.take_succ_cons, List.map_cons]
      by_cases hmem : canonicalize u ∈ seen
      · simp only [dedupGo, if_pos hmem, List.getD_cons_succ]
        rw [ih seen i' hi']
        have hiff : canonicalize (rest.getD i' []) ∈ seen ++ (rest.take i').map canonicalize
            ↔ canonicalize (rest.getD i' []) ∈
              seen ++ canonicalize u :: (rest.take i').map canonicalize := by
          simp only [List.mem_append, List.mem_cons]
          constructor
          · rintro (h | h)
            · exact Or.inl h
            · exact Or.inr (Or.inr h)
          · rintro (h | h | h)
            · exact Or.inl h
            · exact Or.inl (h ▸ hmem)
            · exact Or.inr h
        exact if_congr hiff rfl rfl
      · simp only [dedupGo, if_neg hmem, List.getD_cons_succ]
        rw [ih (canonicalize u :: seen) i' hi']
        have hiff : canonicalize (rest.getD i' []) ∈
              (canonicalize u :: seen) ++ (rest.take i').map canonicalize
            ↔ canonicalize (rest.getD i' []) ∈
              seen ++ canonicalize u :: (rest.take i').map canonicalize := by
          simp only [List.cons_append, List.mem_cons, List.mem_append]
          tauto
        exact if_congr hiff rfl rfl

lemma mem_map_take_iff (l : List (List Char)) (i : Nat) (x : List Char) :
    x ∈ (l.take i).map canonicalize ↔
      ∃ j, j < i ∧ j < l.length ∧ canonicalize (l.getD j []) = x := by
  induction l generalizing i with
  | nil => simp
  | cons a t ih =>
    cases i with
    | zero => simp
    | succ i' =>
      simp only [List.take_succ_cons, List.map_cons, List.mem_cons, ih i']
      constructor
      · rintro (h | ⟨j, hj1, hj2, hj3⟩)
        · exact ⟨0, by omega, by simp, by simpa using h.symm⟩
        · exact ⟨j + 1, by omega, by simpa using hj2, by simpa using hj3⟩
      · rintro ⟨j, hj1, hj2, hj3⟩
        cases j with
        | zero => exact Or.inl (by simpa using hj3.symm)
        | succ j' =>
          exact Or.inr ⟨j', by omega, by simpa using hj2, by simpa using hj3⟩

/-- C2: for every input sequence of records and every position `i`, the
record at `i` proceeds to naming/renaming (is not removed as a duplicate) if
and only if no earlier record has the same canonical URL: the first record
seen for each canonical URL proceeds, and every subsequent record with that
canonical URL is classified a duplicate, removed, and never renamed. -/
theorem c2_dedup_first_seen (urls : List (List Char)) (i : Nat) (hi : i < urls.length) :
    (dedupProceeds urls).getD i false = true ↔
      ∀ j, j < i → canonicalize (urls.getD j []) ≠ canonicalize (urls.getD i []) := by
  rw [dedupProceeds, dedupGo_getD urls [] i hi]
  rw [List.nil_append]
  by_cases hmem : canonicalize (urls.getD i []) ∈ (urls.take i).map canonicalize
  · rw [if_pos hmem]
    simp only [Bool.false_eq_true, false_iff]
    intro hall
    obtain ⟨j, hj1, _, hj3⟩ := (mem_map_take_iff urls i _).mp hmem
    exact hall j hj1 hj3
  · rw [if_neg hmem]
    simp only [true_iff]
    intro j hj hcan
    exact hmem ((mem_map_take_iff urls i _).mpr ⟨j, hj, by omega, hcan⟩)

/-- Witness for `c2_dedup_first_seen`: two records whose URLs differ only in
the `&pp=` tracking suffix; the second is a duplicate of the first. -/
theorem c2_dedup_first_seen_witness :
    1 < ["https://www.youtube.com/watch?v=abc&pp=xyz".toList,
         "https://www.youtube.com/watch?v=abc&pp=qrs".toList].length ∧
    ((dedupProceeds ["https://www.youtube.com/watch?v=abc&pp=xyz".toList,
        "https://www.youtube.com/watch?v=abc&pp=qrs".toList]).getD 1 false = true ↔
      ∀ j, j < 1 →
        canonicalize (["https://www.youtube.com/watch?v=abc&pp=xyz".toList,
          "https://www.youtube.com/watch?v=abc&pp=qrs".toList].getD j [])
        ≠ canonicalize (["https://www.youtube.com/watch?v=abc&pp=xyz".toList,
          "https://www.youtube.com/watch?v=abc&pp=qrs".toList].getD 1 [])) :=
  ⟨by decide,
   c2_dedup_first_seen
     ["https://www.youtube.com/watch?v=abc&pp=xyz".toList,
      "https://www.youtube.com/watch?v=abc&pp=qrs".toList] 1 (by decide)⟩

lemma simplifyGo_iter : ∀ (fuel : Nat) (q : List SBatch) (o : List SvcResp)
    (names : List (List Char × List Char)) (failed : List (List Char)) (n : Nat),
    q.length ≤ fuel → (simplifyGo fuel q o names failed n).2.2 = n + q.length := by
  intro fuel
  induction fuel with
  | zero =>
    intro q o names failed n hq
    cases q with
    | nil => simp [simplifyGo]
    | cons b rest => simp at hq
  | succ fuel ih =>
    intro q o names failed n hq
    cases q with
    | nil => simp [simplifyGo]
    | cons b rest =>
      have hrest : rest.length ≤ fuel := by simpa using hq
      simp only [simplifyGo]
      cases hresp : o.headD SvcResp.err with
      | ok entries =>
        simp only []
        split_ifs with h1 h2
        · rw [ih rest o.tail _ failed (n + 1) hrest]
          simp only [List.length_cons]
          omega
        · omega
        · rw [ih rest o.tail _ _ (n + 1) hrest]
          simp only [List.length_cons]
          omega
      | err =>
        simp only []
        split_ifs with h1
        · omega
        · rw [ih rest o.tail names _ (n + 1) hrest]
          simp only [List.length_cons]
          omega

/-- C9: the batch-processing loop of `simplify_filenames` terminates for
every finite input list and every sequence of per-batch outcomes: a popped
batch is requeued only while its attempt counter is below the retry bound
(which never happens after the increment), so the loop runs exactly one
iteration per batch — in particular at most `(number of batches) × 1`
iterations — and the function always returns. -/
theorem c9_loop_bounded (fps : List (List Char)) (bs : Nat) (oracle : List SvcResp) :
    (simplify_filenames fps bs oracle).2.2 = (mkBatches fps bs).length ∧
    (simplify_filenames fps bs oracle).2.2 ≤ (mkBatches fps bs).length * 1 := by
  have h := simplifyGo_iter ((mkBatches fps bs).length * 2) (mkBatches fps bs)
    oracle [] [] 0 (by omega)
  unfold simplify_filenames
  constructor
  · simpa using h
  · rw [h]
    omega

/-- C1: evaluation of the batch processor on a batch whose service call
fails on every attempt.  The source increments `attempts` and requeues only
when `attempts < 1`, which is never true after the increment, so the batch
is attempted exactly once — not the two total attempts (one retry) stated by
the contract — and every record of the batch then appears in the failure
report exactly once. -/
theorem c1_always_failing_batch_single_attempt :
    simplify_filenames ["d/a.webloc".toList, "d/b.webloc".toList] 5
        [SvcResp.err, SvcResp.err, SvcResp.err, SvcResp.err]
      = ([], ["d/a.webloc".toList, "d/b.webloc".toList], 1) ∧
    ((simplify_filenames ["d/a.webloc".toList, "d/b.webloc".toList] 5
        [SvcResp.err, SvcResp.err, SvcResp.err, SvcResp.err]).2.1.count
      "d/a.webloc".toList = 1) ∧
    ((simplify_filenames ["d/a.webloc".toList, "d/b.webloc".toList] 5
        [SvcResp.err, SvcResp.err, SvcResp.err, SvcResp.err]).2.1.count
      "d/b.webloc".toList = 1) := by
  refine ⟨by decide, by decide, by decide⟩

example : c3FinalLoc ⟨"d/x.webloc".toList, "https://example.com/a".toList,
    some "My Title".toList, true, false⟩ = "d/My Title".toList := by decide

example : c3Dest ⟨"d/x.webloc".toList, "https://example.com/a".toList,
    some "My Title".toList, true, false⟩ = "d/       Link - My Title.webloc".toList := by
  decide

/-- C3 counterexample: a record whose title-based step-2 rename succeeds and
whose final step-3 rename fails ends the run at the intermediate
title-derived name — neither at its original name nor at its fully computed
final name. -/
theorem c3_half_applied_counterexample :
    c3FinalLoc ⟨"d/x.webloc".toList, "https://example.com/a".toList,
        some "My Title".toList, true, false⟩
      ≠ (⟨"d/x.webloc".toList, "https://example.com/a".toList,
        some "My Title".toList, true, false⟩ : C3In).filepath ∧
    c3FinalLoc ⟨"d/x.webloc".toList, "https://example.com/a".toList,
        some "My Title".toList, true, false⟩
      ≠ c3Dest ⟨"d/x.webloc".toList, "https://example.com/a".toList,
        some "My Title".toList, true, false⟩ := by
  refine ⟨by decide, by decide⟩

/-- C3 (amended): when the run finishes, a record's file is at its original
name, at its fully computed final name, or — exactly when a title was
resolved, the intermediate title rename succeeded, and the final rename
failed — at the intermediate title-derived name of step 2. -/
theorem c3_final_location_cases (r : C3In) :
    c3FinalLoc r = r.filepath ∨ c3FinalLoc r = c3Dest r ∨
      (c3FinalLoc r = (c3Step2 r).2.1 ∧ r.titleQ.isSome = true ∧
        r.ok2 = true ∧ r.ok3 = false) := by
  obtain ⟨fp, url, tq, ok2, ok3⟩ := r
  cases tq with
  | none =>
    cases ok3 with
    | false => left; simp [c3FinalLoc, c3Step2]
    | true => right; left; simp [c3FinalLoc, c3Step2]
  | some t =>
    cases ok2 with
    | true =>
      cases ok3 with
      | false =>
        right; right
        refine ⟨?_, rfl, rfl, rfl⟩
        simp [c3FinalLoc, c3Step2]
      | true =>
        right; left
        simp [c3FinalLoc, c3Step2]
    | false =>
      cases ok3 with
      | false => left; simp [c3FinalLoc, c3Step2]
      | true =>
        by_cases hpe : (c3Step2 ⟨fp, url, some t, false, true⟩).2.1
            = (c3Step2 ⟨fp, url, some t, false, true⟩).2.2
        · right; left
          have hb : ((c3Step2 ⟨fp, url, some t, false, true⟩).2.1
              == (c3Step2 ⟨fp, url, some t, false, true⟩).2.2) = true := by
            rw [hpe, beq_self_eq_true]
          simp only [c3FinalLoc, hb, Bool.and_self, if_true]
        · left
          have hb : ((c3Step2 ⟨fp, url, some t, false, true⟩).2.1
              == (c3Step2 ⟨fp, url, some t, false, true⟩).2.2) = false :=
            beq_eq_false_iff_ne.mpr hpe
          simp only [c3FinalLoc, hb, Bool.and_false, Bool.false_eq_true, if_false]
          simp [c3Step2]

set_option maxRecDepth 8192 in
/-- C4: evaluation of the committed-name computation at a failing input.  A
simplified name of 300 characters with the `.webloc` extension triggers the
last-resort hard truncation of `rename_webloc_files`, which cuts the name to
its first 250 characters and then reattaches the 7-character extension,
committing a 257-character filename — exceeding the 255-character platform
limit that the claim asserts. -/
theorem c4_hard_truncation_exceeds_limit :
    (slimNewName (List.replicate 300 'a') ".webloc".toList).length = 257 ∧
    255 < (slimNewName (List.replicate 300 'a') ".webloc".toList).length := by
  refine ⟨by decide, by decide⟩

set_option maxRecDepth 8192 in
/-- C5 counterexample: a dry run over two records where the first batch
succeeds and the second is quarantined still mutates the filesystem — it
writes the remediation script `failed.py` — so a dry run with failed or
quarantined records does not perform zero filesystem mutations. -/
theorem c5_dry_run_writes_failed_script :
    slimMainEvents ["d/a.webloc".toList, "d/b.webloc".toList] 1
        [SvcResp.ok [SEntry.plain "X".toList], SvcResp.err] true (fun _ => true) true
      = [FsEv.fileWrite failedPy] ∧
    slimMainEvents ["d/a.webloc".toList, "d/b.webloc".toList] 1
        [SvcResp.ok [SEntry.plain "X".toList], SvcResp.err] true (fun _ => true) true
      ≠ ([] : List FsEv) := by
  refine ⟨by decide, by decide⟩

lemma rename_dry (items : List (List Char × List Char)) (rOk : List Char → Bool) :
    rename_webloc_files items true rOk = ([], []) := by
  induction items with
  | nil => rfl
  | cons q rest ih =>
    obtain ⟨orig, simplified⟩ := q
    simp [rename_webloc_files, ih]

/-- C5 (amended): in dry-run mode the run never renames or removes anything —
its filesystem-mutation trace is either empty or consists of exactly the
single write of the remediation script `failed.py`, which still happens
whenever failed or quarantined records exist alongside at least one
simplified name. -/
theorem c5_dry_run_trace (files : List (List Char)) (bs : Nat) (oracle : List SvcResp)
    (rOk : List Char → Bool) (confirm : Bool) :
    slimMainEvents files bs oracle true rOk confirm = [] ∨
    slimMainEvents files bs oracle true rOk confirm = [FsEv.fileWrite failedPy] := by
  simp only [slimMainEvents, rename_dry, Bool.not_true, Bool.false_and,
    Bool.false_eq_true, if_false, List.nil_append, List.append_nil]
  split_ifs <;> simp

/-- C10 counterexample: a valid shortcut file whose extension is not
`.webloc` (discovery is by plist parsing, not by extension) gets a final
destination ending in `.webloc`, not in its original extension `.bin`. -/
theorem c10_extension_counterexample :
    (splitExtBase (baseName "d/foo.bin".toList)).2 = ".bin".toList ∧
    (".bin".toList).isSuffixOf
      (c3Dest ⟨"d/foo.bin".toList, "https://example.com/a".toList, none, true, true⟩)
      = false := by
  refine ⟨by decide, by decide⟩

lemma ext_suffix_slimNewName (s ext : List Char) : ext <:+ slimNewName s ext := by
  unfold slimNewName
  dsimp only
  split
  · exact List.suffix_append _ _
  · exact List.suffix_append _ _

lemma suffix_pathJoin (a b : List Char) : b <:+ pathJoin a b := by
  unfold pathJoin
  split_ifs
  · exact List.suffix_rfl
  · exact List.suffix_append _ _
  · exact (List.suffix_cons '/' b).trans (List.suffix_append a ('/' :: b))

/-- C10 (amended): the final destination of `change_webloc_names` always
ends with `.webloc` — which is the shortcut's original extension exactly
when the original file carries the `.webloc` extension — and the destination
of `slim_webloc_names`' rename always ends with the shortcut's original
extension, both when building the new name and after the hard truncation. -/
theorem c10_extension_amended :
    (∀ r : C3In, weblocL.isSuffixOf (c3Dest r) = true) ∧
    (∀ orig simplified : List Char,
      ((splitExtBase (baseName orig)).2).isSuffixOf (slimNewPath orig simplified) = true) := by
  constructor
  · intro r
    unfold c3Dest
    dsimp only
    split <;> split
    · assumption
    · exact List.isSuffixOf_iff_suffix.mpr (List.suffix_append _ _)
    · assumption
    · exact List.isSuffixOf_iff_suffix.mpr (List.suffix_append _ _)
  · intro orig simplified
    exact List.isSuffixOf_iff_suffix.mpr
      ((ext_suffix_slimNewName simplified _).trans (suffix_pathJoin _ _))

set_option maxRecDepth 8192 in
/-- C6 counterexample: a batch of two records for which the service returns
only one entry.  The first record is matched by index; the second record is
simply absent from the resulting name map — it is not assigned its original
basename as a fallback (so it never progresses to a rename), although it is
also not reported as failed. -/
theorem c6_missing_entry_omitted :
    (simplify_filenames ["d/a.webloc".toList, "d/b.webloc".toList] 5
        [SvcResp.ok [SEntry.plain "X".toList]]).1
      = [("d/a.webloc".toList, "X".toList)] ∧
    ((simplify_filenames ["d/a.webloc".toList, "d/b.webloc".toList] 5
        [SvcResp.ok [SEntry.plain "X".toList]]).1).lookup "d/b.webloc".toList = none ∧
    (simplify_filenames ["d/a.webloc".toList, "d/b.webloc".toList] 5
        [SvcResp.ok [SEntry.plain "X".toList]]).2.1 = [] := by
  refine ⟨by decide, by decide, by decide⟩

lemma assocUpsert_not_mem : ∀ (l : List (List Char × List Char)) (k v : List Char),
    (∀ q ∈ l, q.1 ≠ k) → assocUpsert l k v = l ++ [(k, v)] := by
  intro l
  induction l with
  | nil => intro k v _; rfl
  | cons q t ih =>
    intro k v h
    obtain ⟨k', v'⟩ := q
    have hne : k' ≠ k := h (k', v') (by simp)
    simp only [assocUpsert, if_neg hne, List.cons_append]
    rw [ih k v (fun q hq => h q (List.mem_cons_of_mem _ hq))]

lemma foldUpsert_eq : ∀ (ps : List (List Char × SEntry)) (names : List (List Char × List Char)),
    (ps.map Prod.fst).Nodup →
    (∀ k ∈ ps.map Prod.fst, ∀ q ∈ names, q.1 ≠ k) →
    ps.foldl (fun a p => assocUpsert a p.1 (assignName p.1 p.2)) names
      = names ++ ps.map (fun p => (p.1, assignName p.1 p.2)) := by
  intro ps
  induction ps with
  | nil => intro names _ _; simp
  | cons p ps ih =>
    intro names hnd hdis
    simp only [List.map_cons, List.nodup_cons] at hnd
    simp only [List.foldl_cons, List.map_cons]
    rw [assocUpsert_not_mem names p.1 (assignName p.1 p.2)
      (fun q hq => hdis p.1 (List.mem_map_of_mem Prod.fst (List.mem_cons_self p ps)) q hq)]
    rw [ih (names ++ [(p.1, assignName p.1 p.2)]) hnd.2 ?_]
    · simp
    · intro k hk q hq
      rcases List.mem_append.mp hq with hq | hq
      · exact hdis k (List.mem_cons_of_mem _ hk) q hq
      · simp only [List.mem_singleton] at hq
        subst hq
        exact fun he => hnd.1 (he ▸ hk)

lemma nodup_zip_fst : ∀ (fns : List (List Char)) (es : List SEntry), fns.Nodup →
    ((fns.zip es).map Prod.fst).Nodup := by
  intro fns
  induction fns with
  | nil => intro es _; simp
  | cons a t ih =>
    intro es h
    cases es with
    | nil => simp
    | cons e es' =>
      simp only [List.zip_cons_cons, List.map_cons]
      rw [List.nodup_cons] at h ⊢
      refine ⟨?_, ih es' h.2⟩
      intro hmem
      obtain ⟨p, hp, hpe⟩ := List.mem_map.mp hmem
      exact h.1 (hpe ▸ (List.of_mem_zip hp).1)

lemma mkBatches_singleton (fns : List (List Char)) (bs : Nat) (h3 : 0 < fns.length)
    (h4 : fns.length ≤ bs) : mkBatches fns bs = [⟨0, fns, 0⟩] := by
  have hbs : 0 < bs := lt_of_lt_of_le h3 h4
  have h5 : fns.length + bs - 1 = (fns.length - 1) + bs := by omega
  unfold mkBatches
  rw [h5, Nat.add_div_right _ hbs, Nat.div_eq_of_lt (by omega)]
  simp [List.range_succ, List.take_of_length_le h4]

lemma simplifyGo_one_ok (fns : List (List Char)) (entries : List SEntry) (fuel : Nat)
    (h1 : entries.length ≤ fns.length) :
    simplifyGo (fuel + 2) [⟨0, fns, 0⟩] [SvcResp.ok entries] [] [] 0
      = (assignBatch fns entries [], [], 1) := by
  simp [simplifyGo, h1]

/-- C6 (amended): for a successful batch response, entry `i` is matched to
the batch's record `i` (with the record's `" - "`-prefix reattached); when
the service returns fewer entries than the batch has records, the records
without a matching entry are silently omitted from the name map — they are
neither assigned a fallback name nor reported as failed — and the batch
still counts as a success. -/
theorem c6_success_index_matching (fns : List (List Char)) (entries : List SEntry)
    (bs : Nat) (h1 : entries.length ≤ fns.length) (h2 : fns.Nodup)
    (h3 : 0 < fns.length) (h4 : fns.length ≤ bs) :
    (simplify_filenames fns bs [SvcResp.ok entries]).1
      = (fns.zip entries).map (fun p => (p.1, assignName p.1 p.2)) ∧
    (simplify_filenames fns bs [SvcResp.ok entries]).2.1 = [] := by
  unfold simplify_filenames
  rw [mkBatches_singleton fns bs h3 h4]
  have hlen : ([(⟨0, fns, 0⟩ : SBatch)] : List SBatch).length * 2 = 0 + 2 := by simp
  rw [hlen, simplifyGo_one_ok fns entries 0 h1]
  constructor
  · show assignBatch fns entries [] = _
    unfold assignBatch
    rw [foldUpsert_eq (fns.zip entries) [] (nodup_zip_fst fns entries h2)
      (fun k _ q hq => absurd hq (List.not_mem_nil q))]
    simp
  · rfl

/-- Witness for `c6_success_index_matching`: a batch of two records with a
one-entry response; the first record gets the entry, the second is omitted. -/
theorem c6_success_index_matching_witness :
    ([SEntry.plain "X".toList].length
        ≤ ["d/a.webloc".toList, "d/b.webloc".toList].length) ∧
    (["d/a.webloc".toList, "d/b.webloc".toList]).Nodup ∧
    (0 < ["d/a.webloc".toList, "d/b.webloc".toList].length) ∧
    (["d/a.webloc".toList, "d/b.webloc".toList].length ≤ 5) ∧
    ((simplify_filenames ["d/a.webloc".toList, "d/b.webloc".toList] 5
        [SvcResp.ok [SEntry.plain "X".toList]]).1
      = ((["d/a.webloc".toList, "d/b.webloc".toList]).zip
          [SEntry.plain "X".toList]).map (fun p => (p.1, assignName p.1 p.2)) ∧
     (simplify_filenames ["d/a.webloc".toList, "d/b.webloc".toList] 5
        [SvcResp.ok [SEntry.plain "X".toList]]).2.1 = []) :=
  ⟨by decide, by decide, by decide, by decide,
   c6_success_index_matching ["d/a.webloc".toList, "d/b.webloc".toList]
     [SEntry.plain "X".toList] 5 (by decide) (by decide) (by decide) (by decide)⟩
